import Mathlib

/-!
Verification of the patent-citation centrality pipeline.

The pipeline reads an edge list of patent citations into a directed graph,
computes three centrality measures (in-degree, eigenvector via power
iteration, PageRank), ranks the scores, and joins the top identifiers
against a patent-attribute table.

The ranking slice (`top_k`) and the attribute join (`lookup`) are embedded
from the source notebook.  The graph builder and the three centrality
functions are calls into a graph library whose code is not part of the
repository; they are modelled from the specification, as their doc comments
note.  Scores are rational numbers, so every conservation statement is
exact rather than within floating-point error.
-/

/-- A directed citation graph: a duplicate-free list of node identifiers
(patent ids as strings) and a finite set of directed edges
(citing → cited).  Edges reference only node identifiers. -/
structure PatGraph where
  nodeList : List String
  edges : Finset (String × String)
  nodes_nodup : nodeList.Nodup
  edges_sub : ∀ e ∈ edges, e.1 ∈ nodeList ∧ e.2 ∈ nodeList

/-- The node set of a graph. -/
def PatGraph.nodes (G : PatGraph) : Finset String := G.nodeList.toFinset

theorem PatGraph.mem_nodes (G : PatGraph) (v : String) :
    v ∈ G.nodes ↔ v ∈ G.nodeList := List.mem_toFinset

/-- Build a graph from a list of directed edges plus possible isolated
nodes: the node set is the union of all ids in either column together
with the isolated ids, duplicate edges collapse (Finset), self-loops are
kept. -/
def mkGraph (es : List (String × String)) (isolated : List String) : PatGraph where
  nodeList := (es.map Prod.fst ++ es.map Prod.snd ++ isolated).dedup
  edges := es.toFinset
  nodes_nodup := List.nodup_dedup _
  edges_sub := by
    intro e he
    simp only [List.mem_toFinset, List.mem_dedup, List.mem_append, List.mem_map] at *
    exact ⟨Or.inl (Or.inl ⟨e, he, rfl⟩), Or.inl (Or.inr ⟨e, he, rfl⟩)⟩

/-- Number of incoming edges of a node. -/
def indeg (G : PatGraph) (v : String) : ℕ :=
  (G.edges.filter (fun e => e.2 = v)).card

/-- Number of outgoing edges of a node. -/
def outdeg (G : PatGraph) (u : String) : ℕ :=
  (G.edges.filter (fun e => e.1 = u)).card

/-- Error raised by a centrality function on a graph with no nodes. -/
inductive EmptyGraphError where
  | emptyGraph : EmptyGraphError
deriving DecidableEq, Repr

/-- Modelled from the spec: the in-degree centrality function of the graph
library (the notebook calls it on the citation graph; its code is not in
the repository).  For node v the score is indegree(v) / (N − 1) where N is
the node count; N = 1 is degenerate with score 0; an empty node set is an
EmptyGraphError.  The score table is keyed by every node of the graph. -/
def in_degree_centrality (G : PatGraph) : Except EmptyGraphError (List (String × ℚ)) :=
  if G.nodeList = [] then .error .emptyGraph
  else .ok (G.nodeList.map (fun v =>
    (v, if G.nodes.card ≤ 1 then 0 else (indeg G v : ℚ) / (G.nodes.card - 1))))

theorem lookup_map_self {α β : Type} [BEq α] [LawfulBEq α] (f : α → β)
    (l : List α) (v : α) (hv : v ∈ l) :
    (l.map (fun u => (u, f u))).lookup v = some (f v) := by
  induction l with
  | nil => cases hv
  | cons a l ih =>
    rcases List.mem_cons.mp hv with h | h
    · subst h; simp [List.lookup]
    · by_cases hva : v = a
      · subst hva; simp [List.lookup]
      · have : (v == a) = false := beq_false_of_ne hva
        simp [List.lookup, this, ih h]

theorem nodeList_ne_nil_of_card (G : PatGraph) (h : 0 < G.nodes.card) :
    G.nodeList ≠ [] := by
  intro hnil
  rw [PatGraph.nodes, hnil] at h
  simp at h

/-- C1: for every directed graph with N > 1 nodes, in-degree centrality
returns a score table that maps each node v to indegree(v) / (N − 1); for
a graph with exactly one node, the table maps that node to 0. -/
theorem in_degree_centrality_formula (G : PatGraph) :
    (1 < G.nodes.card →
      ∃ t, in_degree_centrality G = .ok t ∧
        ∀ v ∈ G.nodes, t.lookup v = some ((indeg G v : ℚ) / (G.nodes.card - 1))) ∧
    (G.nodes.card = 1 →
      ∃ t, in_degree_centrality G = .ok t ∧
        ∀ v ∈ G.nodes, t.lookup v = some (0 : ℚ)) := by
  constructor
  · intro hN
    have hne : G.nodeList ≠ [] := nodeList_ne_nil_of_card G (by omega)
    refine ⟨G.nodeList.map (fun v =>
      (v, if G.nodes.card ≤ 1 then 0 else (indeg G v : ℚ) / (G.nodes.card - 1))), ?_, ?_⟩
    · rw [in_degree_centrality, if_neg hne]
    · intro v hv
      have hv' : v ∈ G.nodeList := (G.mem_nodes v).mp hv
      rw [lookup_map_self _ _ _ hv']
      have : ¬ G.nodes.card ≤ 1 := Nat.not_le.mpr hN
      simp [this]
  · intro hN
    have hne : G.nodeList ≠ [] := nodeList_ne_nil_of_card G (by omega)
    refine ⟨G.nodeList.map (fun v =>
      (v, if G.nodes.card ≤ 1 then 0 else (indeg G v : ℚ) / (G.nodes.card - 1))), ?_, ?_⟩
    · rw [in_degree_centrality, if_neg hne]
    · intro v hv
      have hv' : v ∈ G.nodeList := (G.mem_nodes v).mp hv
      rw [lookup_map_self _ _ _ hv']
      simp [hN]

/-- A concrete two-node graph A → B. -/
def gPath2 : PatGraph := mkGraph [("A", "B")] []

/-- A concrete one-node graph with no edges. -/
def gSingle : PatGraph := mkGraph [] ["X"]

/-- Witness for C1 at two concrete graphs: a two-node and a one-node graph. -/
theorem in_degree_centrality_formula_witness :
    (∃ t, in_degree_centrality gPath2 = .ok t ∧
      ∀ v ∈ gPath2.nodes, t.lookup v = some ((indeg gPath2 v : ℚ) / (gPath2.nodes.card - 1))) ∧
    (∃ t, in_degree_centrality gSingle = .ok t ∧
      ∀ v ∈ gSingle.nodes, t.lookup v = some (0 : ℚ)) :=
  ⟨(in_degree_centrality_formula gPath2).1 (by decide),
   (in_degree_centrality_formula gSingle).2 (by decide)⟩

/-- The sink nodes of a graph: nodes with no outgoing edges. -/
def sinkSet (G : PatGraph) : Finset String :=
  G.nodes.filter (fun u => outdeg G u = 0)

/-- The in-neighbour sources of a node: all nodes with an edge into it. -/
def inSources (G : PatGraph) (v : String) : Finset String :=
  G.nodes.filter (fun u => (u, v) ∈ G.edges)

/-- Modelled from the spec: one PageRank iteration step in the
random-surfer formulation with damping factor d, uniform teleportation
over all nodes, and the rank mass of sink nodes distributed uniformly
across all nodes. -/
def pagerankStep (G : PatGraph) (d : ℚ) (x : String → ℚ) : String → ℚ :=
  fun v => (1 - d) / G.nodes.card +
    d * ((∑ u in sinkSet G, x u) / G.nodes.card +
         ∑ u in inSources G v, x u / outdeg G u)

/-- PageRank vector after k iteration steps, starting from the uniform
distribution. -/
def pagerankIter (G : PatGraph) (d : ℚ) : ℕ → String → ℚ
  | 0 => fun _ => 1 / G.nodes.card
  | k + 1 => pagerankStep G d (pagerankIter G d k)

/-- Modelled from the spec: the PageRank function of the graph library
(the notebook calls it on the citation graph; its code is not in the
repository).  Damping factor d (default 0.85), a fixed iteration cap to
guarantee termination, an EmptyGraphError on an empty node set, and a
score table keyed by every node. -/
def pagerank (G : PatGraph) (d : ℚ) (maxIter : ℕ) :
    Except EmptyGraphError (List (String × ℚ)) :=
  if G.nodeList = [] then .error .emptyGraph
  else .ok (G.nodeList.map (fun v => (v, pagerankIter G d maxIter v)))

theorem outdeg_eq_card_targets (G : PatGraph) (u : String) :
    (G.nodes.filter (fun v => (u, v) ∈ G.edges)).card = outdeg G u := by
  rw [outdeg]
  apply Finset.card_bij (fun v _ => (u, v))
  · intro v hv
    simp only [Finset.mem_filter] at hv
    simp [Finset.mem_filter, hv.2]
  · intro v₁ hv₁ v₂ hv₂ h
    exact congrArg Prod.snd h
  · intro e he
    simp only [Finset.mem_filter] at he
    refine ⟨e.2, ?_, ?_⟩
    · simp only [Finset.mem_filter, PatGraph.mem_nodes]
      exact ⟨(G.edges_sub e he.1).2, by rw [← he.2]; exact he.1⟩
    · rw [← he.2]

theorem sum_inSources (G : PatGraph) (f : String → ℚ) :
    ∑ v in G.nodes, ∑ u in inSources G v, f u
      = ∑ u in G.nodes, (outdeg G u : ℚ) * f u := by
  have h1 : ∀ v, ∑ u in inSources G v, f u
      = ∑ u in G.nodes, if (u, v) ∈ G.edges then f u else 0 := by
    intro v
    rw [inSources, Finset.sum_filter]
  simp only [h1]
  rw [Finset.sum_comm]
  refine Finset.sum_congr rfl ?_
  intro u _
  rw [← Finset.sum_filter, Finset.sum_const, outdeg_eq_card_targets, nsmul_eq_mul]

theorem sum_outdeg_ratio (G : PatGraph) (x : String → ℚ) :
    ∑ u in G.nodes, (outdeg G u : ℚ) * (x u / outdeg G u)
      = ∑ u in G.nodes, x u - ∑ u in sinkSet G, x u := by
  have h1 : ∀ u ∈ G.nodes, (outdeg G u : ℚ) * (x u / outdeg G u)
      = if outdeg G u = 0 then 0 else x u := by
    intro u _
    by_cases h : outdeg G u = 0
    · simp [h]
    · have hq : (outdeg G u : ℚ) ≠ 0 := Nat.cast_ne_zero.mpr h
      rw [if_neg h]
      field_simp
  rw [Finset.sum_congr rfl h1]
  have h2 : ∑ u in G.nodes, (if outdeg G u = 0 then 0 else x u)
      = ∑ u in G.nodes.filter (fun u => ¬ outdeg G u = 0), x u := by
    rw [Finset.sum_filter]
    refine Finset.sum_congr rfl ?_
    intro u _
    by_cases h : outdeg G u = 0 <;> simp [h]
  rw [h2, sinkSet]
  have h3 := Finset.sum_filter_add_sum_filter_not G.nodes (fun u => outdeg G u = 0) x
  linarith

theorem sum_pagerankStep (G : PatGraph) (d : ℚ) (x : String → ℚ)
    (hN : G.nodes.Nonempty) (hx : ∑ v in G.nodes, x v = 1) :
    ∑ v in G.nodes, pagerankStep G d x v = 1 := by
  have hcard : (G.nodes.card : ℚ) ≠ 0 :=
    Nat.cast_ne_zero.mpr (Finset.card_ne_zero.mpr hN)
  unfold pagerankStep
  rw [Finset.sum_add_distrib, Finset.sum_const, ← Finset.mul_sum,
    Finset.sum_add_distrib, Finset.sum_const,
    sum_inSources G (fun u => x u / outdeg G u), sum_outdeg_ratio, hx,
    nsmul_eq_mul, nsmul_eq_mul, mul_div_cancel₀ _ hcard, mul_div_cancel₀ _ hcard]
  ring

theorem sum_pagerankIter (G : PatGraph) (d : ℚ) (k : ℕ) (hN : G.nodes.Nonempty) :
    ∑ v in G.nodes, pagerankIter G d k v = 1 := by
  have hcard : (G.nodes.card : ℚ) ≠ 0 :=
    Nat.cast_ne_zero.mpr (Finset.card_ne_zero.mpr hN)
  induction k with
  | zero =>
    rw [pagerankIter, Finset.sum_const, nsmul_eq_mul, mul_one_div, div_self hcard]
  | succ k ih =>
    exact sum_pagerankStep G d _ hN ih

/-- C2: for every directed graph with a non-empty node set (sink nodes
included), the PageRank scores sum exactly to 1, for every damping factor
and every iteration count. -/
theorem pagerank_sum_one (G : PatGraph) (d : ℚ) (k : ℕ) (hN : G.nodes.Nonempty) :
    ∃ t, pagerank G d k = .ok t ∧ (t.map Prod.snd).sum = 1 := by
  have hne : G.nodeList ≠ [] := by
    intro h
    rcases hN with ⟨v, hv⟩
    rw [PatGraph.mem_nodes, h] at hv
    cases hv
  refine ⟨G.nodeList.map (fun v => (v, pagerankIter G d k v)), ?_, ?_⟩
  · rw [pagerank, if_neg hne]
  · rw [List.map_map]
    have hcomp : (Prod.snd ∘ fun v => (v, pagerankIter G d k v))
        = pagerankIter G d k := rfl
    rw [hcomp, ← List.sum_toFinset _ G.nodes_nodup]
    exact sum_pagerankIter G d k hN

/-- Witness for C2 at a concrete graph with a sink node (B has no
outgoing edge), with the default damping factor 0.85 and three steps. -/
theorem pagerank_sum_one_witness :
    ∃ t, pagerank gPath2 (17/20) 3 = .ok t ∧ (t.map Prod.snd).sum = 1 :=
  pagerank_sum_one gPath2 (17/20) 3 ⟨"A", by decide⟩

/-- Modelled from the spec: one step of the power iteration for
eigenvector centrality in the cited-by direction, matching the importance
semantics of in-degree: the new score of node v is the sum of the scores
of all nodes citing v. -/
def eigStep (G : PatGraph) (x : String → ℚ) : String → ℚ :=
  fun v => ∑ u in inSources G v, x u

/-- Power-iteration vector after k steps, from the all-ones start. -/
def eigIter (G : PatGraph) : ℕ → String → ℚ
  | 0 => fun _ => 1
  | k + 1 => eigStep G (eigIter G k)

/-- L1 norm of the power-iteration vector after k steps. -/
def eigL1 (G : PatGraph) (k : ℕ) : ℚ :=
  (G.nodeList.map (fun v => |eigIter G k v|)).sum

/-- Modelled from the spec: the eigenvector centrality function of the
graph library (the notebook calls it on the citation graph; its code is
not in the repository): power iteration with an iteration cap, scores
normalized so they are comparable, an EmptyGraphError on an empty node
set, and a score table keyed by every node. -/
def eigenvector_centrality_numpy (G : PatGraph) (k : ℕ) :
    Except EmptyGraphError (List (String × ℚ)) :=
  if G.nodeList = [] then .error .emptyGraph
  else .ok (G.nodeList.map (fun v => (v, eigIter G k v / eigL1 G k)))

/-- Two disjoint 2-cycles a ↔ b and c ↔ d with identical structure. -/
def gTwoCycles : PatGraph :=
  mkGraph [("a", "b"), ("b", "a"), ("c", "d"), ("d", "c")] []

/-- Two disjoint components of different spectral weight: p and q cite
each other and themselves (dominant eigenvalue 2), while r and s form a
plain 2-cycle (eigenvalue 1). -/
def gDom : PatGraph :=
  mkGraph [("p", "q"), ("q", "p"), ("p", "p"), ("q", "q"), ("r", "s"), ("s", "r")] []

theorem eigIter_gTwoCycles (k : ℕ) :
    eigIter gTwoCycles k "a" = 1 ∧ eigIter gTwoCycles k "b" = 1 ∧
    eigIter gTwoCycles k "c" = 1 ∧ eigIter gTwoCycles k "d" = 1 := by
  induction k with
  | zero => exact ⟨rfl, rfl, rfl, rfl⟩
  | succ k ih =>
    obtain ⟨ha, hb, hc, hd⟩ := ih
    have hsa : inSources gTwoCycles "a" = {"b"} := by decide
    have hsb : inSources gTwoCycles "b" = {"a"} := by decide
    have hsc : inSources gTwoCycles "c" = {"d"} := by decide
    have hsd : inSources gTwoCycles "d" = {"c"} := by decide
    refine ⟨?_, ?_, ?_, ?_⟩ <;>
      simp only [eigIter, eigStep, hsa, hsb, hsc, hsd, Finset.sum_singleton, ha, hb, hc, hd]

theorem eigL1_gTwoCycles (k : ℕ) : eigL1 gTwoCycles k = 4 := by
  obtain ⟨ha, hb, hc, hd⟩ := eigIter_gTwoCycles k
  have hnl : gTwoCycles.nodeList = ["b", "a", "d", "c"] := by decide
  rw [eigL1, hnl]
  simp [ha, hb, hc, hd]
  norm_num

/-- C3 counterexample: the two disjoint identical 2-cycles form a
disconnected graph, yet the computed eigenvector centrality gives every
node of both components the same positive score 1/4; the scores are split
evenly between the two components instead of concentrating on one. -/
theorem eigenvector_split_counterexample :
    ∃ t, eigenvector_centrality_numpy gTwoCycles 3 = .ok t ∧
      t.lookup "a" = some (1/4) ∧ t.lookup "b" = some (1/4) ∧
      t.lookup "c" = some (1/4) ∧ t.lookup "d" = some (1/4) := by
  obtain ⟨ha, hb, hc, hd⟩ := eigIter_gTwoCycles 3
  have hL := eigL1_gTwoCycles 3
  have hne : gTwoCycles.nodeList ≠ [] := by decide
  refine ⟨gTwoCycles.nodeList.map
    (fun v => (v, eigIter gTwoCycles 3 v / eigL1 gTwoCycles 3)), ?_, ?_, ?_, ?_, ?_⟩
  · rw [eigenvector_centrality_numpy, if_neg hne]
  · rw [lookup_map_self _ _ _ (by decide), ha, hL]
  · rw [lookup_map_self _ _ _ (by decide), hb, hL]
  · rw [lookup_map_self _ _ _ (by decide), hc, hL]
  · rw [lookup_map_self _ _ _ (by decide), hd, hL]

theorem eigIter_gDom (k : ℕ) :
    eigIter gDom k "p" = 2 ^ k ∧ eigIter gDom k "q" = 2 ^ k ∧
    eigIter gDom k "r" = 1 ∧ eigIter gDom k "s" = 1 := by
  induction k with
  | zero => exact ⟨rfl, rfl, rfl, rfl⟩
  | succ k ih =>
    obtain ⟨hp, hq, hr, hs⟩ := ih
    have hsp : inSources gDom "p" = {"p", "q"} := by decide
    have hsq : inSources gDom "q" = {"p", "q"} := by decide
    have hsr : inSources gDom "r" = {"s"} := by decide
    have hss : inSources gDom "s" = {"r"} := by decide
    have hnm : ("p" : String) ∉ ({"q"} : Finset String) := by decide
    refine ⟨?_, ?_, ?_, ?_⟩
    · simp only [eigIter, eigStep, hsp, Finset.sum_insert hnm, Finset.sum_singleton, hp, hq]
      ring
    · simp only [eigIter, eigStep, hsq, Finset.sum_insert hnm, Finset.sum_singleton, hp, hq]
      ring
    · simp only [eigIter, eigStep, hsr, Finset.sum_singleton, hs]
    · simp only [eigIter, eigStep, hss, Finset.sum_singleton, hr]

theorem eigL1_gDom (k : ℕ) : eigL1 gDom k = 2 * 2 ^ k + 2 := by
  obtain ⟨hp, hq, hr, hs⟩ := eigIter_gDom k
  have hnl : gDom.nodeList = ["p", "q", "s", "r"] := by decide
  have h2 : |(2:ℚ) ^ k| = 2 ^ k := abs_of_nonneg (by positivity)
  rw [eigL1, hnl]
  simp [hp, hq, hr, hs, h2]
  ring

/-- C3 as amended: when the two disjoint components have distinct
dominant eigenvalues, the power-iteration eigenvector centrality
concentrates on the dominant component and the scores of the other
component decay to zero; on the constructed graph, the sub-dominant nodes
r and s score exactly 1 / (2·2^k + 2) after k steps, a quantity tending
to 0, while the dominant nodes score 2^k / (2·2^k + 2).  Components of
identical spectral weight, in contrast, split the scores evenly. -/
theorem eigenvector_concentration :
    (∀ k : ℕ, ∃ t, eigenvector_centrality_numpy gDom k = .ok t ∧
        t.lookup "r" = some (1 / (2 * 2 ^ k + 2)) ∧
        t.lookup "s" = some (1 / (2 * 2 ^ k + 2)) ∧
        t.lookup "p" = some (2 ^ k / (2 * 2 ^ k + 2))) ∧
    Filter.Tendsto (fun k : ℕ => ((eigIter gDom k "r" / eigL1 gDom k : ℚ) : ℝ))
      Filter.atTop (nhds 0) := by
  have hvals : ∀ k : ℕ, (eigIter gDom k "r" / eigL1 gDom k : ℚ) = 1 / (2 * 2 ^ k + 2) := by
    intro k
    rw [(eigIter_gDom k).2.2.1, eigL1_gDom k]
  constructor
  · intro k
    obtain ⟨hp, hq, hr, hs⟩ := eigIter_gDom k
    have hL := eigL1_gDom k
    have hne : gDom.nodeList ≠ [] := by decide
    refine ⟨gDom.nodeList.map (fun v => (v, eigIter gDom k v / eigL1 gDom k)), ?_, ?_, ?_, ?_⟩
    · rw [eigenvector_centrality_numpy, if_neg hne]
    · rw [lookup_map_self _ _ _ (by decide), hr, hL]
    · rw [lookup_map_self _ _ _ (by decide), hs, hL]
    · rw [lookup_map_self _ _ _ (by decide), hp, hL]
  · have hfun : (fun k : ℕ => ((eigIter gDom k "r" / eigL1 gDom k : ℚ) : ℝ))
        = fun k : ℕ => (1:ℝ) / (2 * 2 ^ k + 2) := by
      funext k
      rw [hvals k]
      push_cast
      ring
    rw [hfun]
    have h0 : ∀ k : ℕ, (0:ℝ) ≤ 1 / (2 * 2 ^ k + 2) := by
      intro k
      positivity
    have hle : ∀ k : ℕ, (1:ℝ) / (2 * 2 ^ k + 2) ≤ (1/2) ^ k := by
      intro k
      have hp : (0:ℝ) < 2 ^ k := by positivity
      have h1 : (1:ℝ) / (2 * 2 ^ k + 2) ≤ 1 / (2 ^ k) := by
        apply one_div_le_one_div_of_le hp
        nlinarith
      calc (1:ℝ) / (2 * 2 ^ k + 2) ≤ 1 / (2 ^ k) := h1
        _ = (1/2) ^ k := by rw [one_div_pow]
    exact squeeze_zero h0 hle
      (tendsto_pow_atTop_nhds_zero_of_lt_one (by norm_num) (by norm_num))

/-- Error raised by the graph builder for a malformed edge line. -/
structure ParseError where
  badLine : String
deriving DecidableEq, Repr

/-- A header or comment line: its first field begins with a quote
character, the comment marker the notebook passes to the reader. -/
def isHeader (l : String) : Bool :=
  match l.data with
  | [] => false
  | c :: _ => c = '"'

/-- Split a character list into its comma-separated fields. -/
def splitFields : List Char → List (List Char)
  | [] => [[]]
  | c :: rest =>
    if c = ',' then [] :: splitFields rest
    else
      match splitFields rest with
      | [] => [[c]]
      | f :: fs => (c :: f) :: fs

/-- Split a line on the comma delimiter into exactly two non-empty
identifiers, if possible. -/
def splitTwo (l : String) : Option (String × String) :=
  match splitFields l.data with
  | [a, b] => if a ≠ [] ∧ b ≠ [] then some (⟨a⟩, ⟨b⟩) else none
  | _ => none

/-- Parse all non-header lines into (citing, cited) pairs, failing on the
first line that does not split into exactly two identifiers. -/
def parseEdges : List String → Except ParseError (List (String × String))
  | [] => .ok []
  | l :: ls =>
    if isHeader l then parseEdges ls
    else
      match splitTwo l with
      | none => .error ⟨l⟩
      | some e => (parseEdges ls).map (fun es => e :: es)

/-- Modelled from the spec: the graph builder (the notebook builds the
graph with the edge-list reader of the graph library, whose code is not
in the repository).  Given the text lines of an edge list it produces a
directed graph whose node set is the union of the ids of both columns and
whose edges are the parsed pairs, or a ParseError for a malformed line. -/
def read_adjlist (ls : List String) : Except ParseError PatGraph :=
  (parseEdges ls).map (fun es => mkGraph es [])

theorem parseEdges_ok_iff (ls : List String) :
    (∃ es, parseEdges ls = .ok es) ↔
      ∀ l ∈ ls, isHeader l = false → (splitTwo l).isSome := by
  induction ls with
  | nil => simp [parseEdges]
  | cons l ls ih =>
    by_cases hh : isHeader l = true
    · have hstep : parseEdges (l :: ls) = parseEdges ls := by
        simp only [parseEdges, if_pos hh]
      rw [hstep]
      constructor
      · intro hex l' hl' hhdr
        rcases List.mem_cons.mp hl' with rfl | hl'
        · rw [hhdr] at hh; cases hh
        · exact ih.mp hex l' hl' hhdr
      · intro hall
        exact ih.mpr (fun l' hl' h => hall l' (List.mem_cons_of_mem _ hl') h)
    · have hh' : isHeader l = false := by simpa using hh
      cases hsp : splitTwo l with
      | none =>
        have hstep : parseEdges (l :: ls) = .error ⟨l⟩ := by
          simp only [parseEdges, if_neg hh, hsp]
        rw [hstep]
        constructor
        · rintro ⟨es, hes⟩
          cases hes
        · intro hall
          have := hall l (List.mem_cons_self _ _) hh'
          rw [hsp] at this
          cases this
      | some e =>
        have hstep : parseEdges (l :: ls) = (parseEdges ls).map (fun es => e :: es) := by
          simp only [parseEdges, if_neg hh, hsp]
        rw [hstep]
        constructor
        · rintro ⟨es, hes⟩
          cases h2 : parseEdges ls with
          | error err =>
            rw [h2] at hes
            exact absurd hes (by simp [Except.map])
          | ok es0 =>
            intro l' hl' hhdr
            rcases List.mem_cons.mp hl' with rfl | hl'
            · rw [hsp]; rfl
            · exact ih.mp ⟨es0, h2⟩ l' hl' hhdr
        · intro hall
          obtain ⟨es0, hes0⟩ :=
            ih.mpr (fun l' hl' h => hall l' (List.mem_cons_of_mem _ hl') h)
          exact ⟨e :: es0, by rw [hes0]; rfl⟩

theorem parseEdges_mem (ls : List String) (es : List (String × String))
    (h : parseEdges ls = .ok es) (a b : String) :
    (a, b) ∈ es ↔ ∃ l ∈ ls, isHeader l = false ∧ splitTwo l = some (a, b) := by
  induction ls generalizing es with
  | nil =>
    rw [show parseEdges [] = Except.ok ([] : List (String × String)) from rfl] at h
    injection h with h2
    subst h2
    simp
  | cons l ls ih =>
    by_cases hh : isHeader l = true
    · have hstep : parseEdges (l :: ls) = parseEdges ls := by
        simp only [parseEdges, if_pos hh]
      rw [hstep] at h
      rw [ih es h]
      constructor
      · rintro ⟨l', hl', hp⟩
        exact ⟨l', List.mem_cons_of_mem _ hl', hp⟩
      · rintro ⟨l', hl', hp⟩
        rcases List.mem_cons.mp hl' with rfl | hl'
        · rw [hp.1] at hh; cases hh
        · exact ⟨l', hl', hp⟩
    · have hh' : isHeader l = false := by simpa using hh
      cases hsp : splitTwo l with
      | none =>
        have hstep : parseEdges (l :: ls) = .error ⟨l⟩ := by
          simp only [parseEdges, if_neg hh, hsp]
        rw [hstep] at h
        cases h
      | some e =>
        have hstep : parseEdges (l :: ls) = (parseEdges ls).map (fun es0 => e :: es0) := by
          simp only [parseEdges, if_neg hh, hsp]
        rw [hstep] at h
        cases h2 : parseEdges ls with
        | error err =>
          rw [h2] at h
          exact absurd h (by simp [Except.map])
        | ok es0 =>
          rw [h2] at h
          have hes : es = e :: es0 := by
            simp only [Except.map] at h
            cases h
            rfl
          subst hes
          rw [List.mem_cons, ih es0 h2]
          constructor
          · rintro (heq | ⟨l', hl', hp⟩)
            · exact ⟨l, List.mem_cons_self _ _, hh', by rw [hsp, heq]⟩
            · exact ⟨l', List.mem_cons_of_mem _ hl', hp⟩
          · rintro ⟨l', hl', hp⟩
            rcases List.mem_cons.mp hl' with rfl | hl'
            · left
              rw [hsp] at hp
              injection hp.2 with h3
              rw [h3]
            · right
              exact ⟨l', hl', hp⟩

/-- C4: the graph builder fails with a ParseError when some non-header
line does not split into exactly two identifiers; when every non-header
line does, it succeeds with a directed graph whose edge set is exactly
the parsed pairs (duplicates collapsed, self-loops kept) and whose node
set is the union of the ids appearing in either column. -/
theorem read_adjlist_spec (ls : List String) :
    ((∃ l ∈ ls, isHeader l = false ∧ splitTwo l = none) →
      ∃ e, read_adjlist ls = .error e) ∧
    ((∀ l ∈ ls, isHeader l = false → (splitTwo l).isSome) →
      ∃ G, read_adjlist ls = .ok G ∧
        (∀ a b, (a, b) ∈ G.edges ↔
          ∃ l ∈ ls, isHeader l = false ∧ splitTwo l = some (a, b)) ∧
        (∀ v, v ∈ G.nodes ↔
          ∃ l ∈ ls, ∃ a b, isHeader l = false ∧ splitTwo l = some (a, b) ∧
            (v = a ∨ v = b))) := by
  constructor
  · rintro ⟨l, hl, hhdr, hsp⟩
    cases hpe : parseEdges ls with
    | error err => exact ⟨err, by rw [read_adjlist, hpe]; rfl⟩
    | ok es =>
      exfalso
      have := (parseEdges_ok_iff ls).mp ⟨es, hpe⟩ l hl hhdr
      rw [hsp] at this
      cases this
  · intro hall
    obtain ⟨es, hes⟩ := (parseEdges_ok_iff ls).mpr hall
    refine ⟨mkGraph es [], by rw [read_adjlist, hes]; rfl, ?_, ?_⟩
    · intro a b
      have : (a, b) ∈ (mkGraph es []).edges ↔ (a, b) ∈ es := List.mem_toFinset
      rw [this, parseEdges_mem ls es hes]
    · intro v
      have hmem : v ∈ (mkGraph es []).nodes ↔
          (∃ e ∈ es, e.1 = v) ∨ (∃ e ∈ es, e.2 = v) := by
        simp [mkGraph, PatGraph.nodes, List.mem_dedup, List.mem_append, List.mem_map]
      rw [hmem]
      constructor
      · rintro (⟨e, he, hev⟩ | ⟨e, he, hev⟩)
        · obtain ⟨l, hl, hp⟩ := (parseEdges_mem ls es hes e.1 e.2).mp (by rwa [Prod.mk.eta])
          exact ⟨l, hl, e.1, e.2, hp.1, hp.2, Or.inl hev.symm⟩
        · obtain ⟨l, hl, hp⟩ := (parseEdges_mem ls es hes e.1 e.2).mp (by rwa [Prod.mk.eta])
          exact ⟨l, hl, e.1, e.2, hp.1, hp.2, Or.inr hev.symm⟩
      · rintro ⟨l, hl, a, b, hhdr, hsp, hv | hv⟩
        · exact Or.inl ⟨(a, b), (parseEdges_mem ls es hes a b).mpr ⟨l, hl, hhdr, hsp⟩, hv.symm⟩
        · exact Or.inr ⟨(a, b), (parseEdges_mem ls es hes a b).mpr ⟨l, hl, hhdr, hsp⟩, hv.symm⟩

/-- Witness for C4: a malformed three-field line is rejected, while a
well-formed input with a quoted header line, a duplicate pair and a
self-loop builds the expected graph. -/
theorem read_adjlist_spec_witness :
    (∃ e, read_adjlist ["A,B,C"] = .error e) ∧
    (∃ G, read_adjlist ["\"CITING\",\"CITED\"", "A,B", "A,B", "B,B"] = .ok G ∧
      (∀ a b, (a, b) ∈ G.edges ↔
        ∃ l ∈ ["\"CITING\",\"CITED\"", "A,B", "A,B", "B,B"],
          isHeader l = false ∧ splitTwo l = some (a, b)) ∧
      (∀ v, v ∈ G.nodes ↔
        ∃ l ∈ ["\"CITING\",\"CITED\"", "A,B", "A,B", "B,B"],
          ∃ a b, isHeader l = false ∧ splitTwo l = some (a, b) ∧ (v = a ∨ v = b))) :=
  ⟨(read_adjlist_spec ["A,B,C"]).1 (by decide),
   (read_adjlist_spec ["\"CITING\",\"CITED\"", "A,B", "A,B", "B,B"]).2 (by decide)⟩

theorem scoreTable_keys (l : List String) (f : String → ℚ) :
    (l.map (fun v => (v, f v))).map Prod.fst = l := by
  rw [List.map_map]
  exact List.map_id l

theorem nodes_empty_iff (G : PatGraph) : G.nodes = ∅ ↔ G.nodeList = [] := by
  rw [PatGraph.nodes]
  exact List.toFinset_eq_empty_iff _

/-- C5: each of the three centrality functions fails with an
EmptyGraphError on a graph with an empty node set; on every graph with a
non-empty node set each terminates with a score table whose keys are
exactly the nodes of the graph. -/
theorem centrality_totality (G : PatGraph) (d : ℚ) (k j : ℕ) :
    (G.nodes = ∅ →
      in_degree_centrality G = .error .emptyGraph ∧
      eigenvector_centrality_numpy G k = .error .emptyGraph ∧
      pagerank G d j = .error .emptyGraph) ∧
    (G.nodes ≠ ∅ →
      ∃ t₁ t₂ t₃,
        in_degree_centrality G = .ok t₁ ∧
        eigenvector_centrality_numpy G k = .ok t₂ ∧
        pagerank G d j = .ok t₃ ∧
        t₁.map Prod.fst = G.nodeList ∧
        t₂.map Prod.fst = G.nodeList ∧
        t₃.map Prod.fst = G.nodeList ∧
        (t₁.map Prod.fst).toFinset = G.nodes ∧
        (t₂.map Prod.fst).toFinset = G.nodes ∧
        (t₃.map Prod.fst).toFinset = G.nodes) := by
  constructor
  · intro hempty
    have hnil : G.nodeList = [] := (nodes_empty_iff G).mp hempty
    exact ⟨by rw [in_degree_centrality, if_pos hnil],
      by rw [eigenvector_centrality_numpy, if_pos hnil],
      by rw [pagerank, if_pos hnil]⟩
  · intro hne
    have hnil : G.nodeList ≠ [] := fun h => hne ((nodes_empty_iff G).mpr h)
    refine ⟨_, _, _,
      by rw [in_degree_centrality, if_neg hnil],
      by rw [eigenvector_centrality_numpy, if_neg hnil],
      by rw [pagerank, if_neg hnil],
      scoreTable_keys _ _, scoreTable_keys _ _, scoreTable_keys _ _,
      ?_, ?_, ?_⟩ <;>
    · rw [scoreTable_keys _ _]
      rfl

/-- A concrete graph with no nodes at all. -/
def gEmpty : PatGraph := mkGraph [] []

/-- Witness for C5 at a concrete empty graph and a concrete non-empty
graph. -/
theorem centrality_totality_witness :
    (in_degree_centrality gEmpty = .error .emptyGraph ∧
      eigenvector_centrality_numpy gEmpty 2 = .error .emptyGraph ∧
      pagerank gEmpty (17/20) 2 = .error .emptyGraph) ∧
    (∃ t₁ t₂ t₃,
      in_degree_centrality gPath2 = .ok t₁ ∧
      eigenvector_centrality_numpy gPath2 2 = .ok t₂ ∧
      pagerank gPath2 (17/20) 2 = .ok t₃ ∧
      t₁.map Prod.fst = gPath2.nodeList ∧
      t₂.map Prod.fst = gPath2.nodeList ∧
      t₃.map Prod.fst = gPath2.nodeList ∧
      (t₁.map Prod.fst).toFinset = gPath2.nodes ∧
      (t₂.map Prod.fst).toFinset = gPath2.nodes ∧
      (t₃.map Prod.fst).toFinset = gPath2.nodes) :=
  ⟨(centrality_totality gEmpty (17/20) 2 2).1 (by decide),
   (centrality_totality gPath2 (17/20) 2 2).2 (by decide)⟩

/-- The ranking slice of the notebook: sort the score-table entries by
score, largest first (a stable sort, ties keep input order), and keep the
first k. -/
def top_k (scores : List (String × ℚ)) (k : ℕ) : List (String × ℚ) :=
  (scores.mergeSort (fun a b => decide (b.2 ≤ a.2))).take k

/-- C6: top_k returns exactly min(k, table size) entries sorted by score
descending; with k = 0 it returns the empty sequence, and when k is at
least the table size it returns all entries (a permutation of the table,
no error). -/
theorem top_k_spec (scores : List (String × ℚ)) (k : ℕ) :
    (top_k scores k).length = min k scores.length ∧
    List.Pairwise (fun a b : String × ℚ => b.2 ≤ a.2) (top_k scores k) ∧
    top_k scores 0 = [] ∧
    (scores.length ≤ k → (top_k scores k).Perm scores) := by
  refine ⟨?_, ?_, ?_, ?_⟩
  · rw [top_k, List.length_take, List.length_mergeSort]
  · have hsorted := @List.sorted_mergeSort (String × ℚ)
      (fun a b => decide (b.2 ≤ a.2))
      (by intro a b c hab hbc; simp at *; linarith)
      (by intro a b; simp [le_total])
      scores
    have hp : List.Pairwise (fun a b : String × ℚ => b.2 ≤ a.2)
        (scores.mergeSort (fun a b => decide (b.2 ≤ a.2))) := by
      simpa [List.Sorted] using hsorted
    exact List.Pairwise.sublist (List.take_sublist _ _) hp
  · rfl
  · intro hlen
    rw [top_k, List.take_of_length_le (by rw [List.length_mergeSort]; exact hlen)]
    exact List.mergeSort_perm scores _

/-- A small concrete score table. -/
def sampleScores : List (String × ℚ) := [("x", 1), ("y", 3), ("z", 2)]

/-- Witness for C6 at a concrete three-entry score table with k = 5. -/
theorem top_k_spec_witness :
    (top_k sampleScores 5).length = min 5 sampleScores.length ∧
    List.Pairwise (fun a b : String × ℚ => b.2 ≤ a.2) (top_k sampleScores 5) ∧
    top_k sampleScores 0 = [] ∧
    (top_k sampleScores 5).Perm sampleScores := by
  obtain ⟨h1, h2, h3, h4⟩ := top_k_spec sampleScores 5
  exact ⟨h1, h2, h3, h4 (by decide)⟩

/-- A row of the patent-attribute table pat_data, after the left join
with the assignee-name table: patent id, grant year, assignee id, and
the possibly missing company name. -/
structure PatRow where
  patent : Int
  gyear : Int
  assignee : Int
  compname : Option String
deriving DecidableEq, Repr

/-- A row of the report produced by lookup: the fixed column projection
cols = [PATENT, GYEAR, COMPNAME]. -/
structure ReportRow where
  patent : Int
  gyear : Int
  compname : Option String
deriving DecidableEq, Repr

/-- The fixed column projection of the notebook. -/
def colsProject (r : PatRow) : ReportRow := ⟨r.patent, r.gyear, r.compname⟩

/-- Natural number denoted by a non-empty all-digit character list. -/
def digitsToNat (cs : List Char) : Option ℕ :=
  if cs ≠ [] ∧ cs.all Char.isDigit then
    some (cs.foldl (fun n c => 10 * n + (c.toNat - 48)) 0)
  else none

/-- Model of the Python int(...) conversion on a string: surrounding
whitespace is ignored, an optional sign precedes a non-empty digit run;
anything else fails. -/
def pyInt (s : String) : Option Int :=
  let t := ((s.data.dropWhile Char.isWhitespace).reverse.dropWhile
    Char.isWhitespace).reverse
  match t with
  | [] => none
  | c :: rest =>
    if c = '-' then (digitsToNat rest).map (fun n => -(n : Int))
    else if c = '+' then (digitsToNat rest).map (fun n => (n : Int))
    else (digitsToNat t).map (fun n => (n : Int))

/-- Error raised when an id is not the string form of an integer, as the
int conversion does in the source. -/
structure ValueError where
  badLiteral : String
deriving DecidableEq, Repr

/-- The int conversion mapped over the id list, left to right, failing at
the first id that is not an integer literal. -/
def parseIds : List String → Except ValueError (List Int)
  | [] => .ok []
  | s :: ss =>
    match pyInt s with
    | none => .error ⟨s⟩
    | some n => (parseIds ss).map (fun ns => n :: ns)

/-- Embedded from the source notebook: lookup converts the ids to
integers, keeps the pat_data rows whose PATENT is among them (in table
order), and returns a fresh copy of those rows projected to the fixed
columns. -/
def lookup (patent_ids : List String) (pat_data : List PatRow) :
    Except ValueError (List ReportRow) :=
  (parseIds patent_ids).map (fun ns =>
    (pat_data.filter (fun r => decide (r.patent ∈ ns))).map colsProject)

theorem parseIds_ok_iff (ids : List String) :
    (∃ ns, parseIds ids = .ok ns) ↔ ∀ s ∈ ids, (pyInt s).isSome := by
  induction ids with
  | nil => simp [parseIds]
  | cons s ss ih =>
    cases hp : pyInt s with
    | none =>
      have hstep : parseIds (s :: ss) = .error ⟨s⟩ := by
        simp only [parseIds, hp]
      rw [hstep]
      constructor
      · rintro ⟨ns, hns⟩
        cases hns
      · intro hall
        have := hall s (List.mem_cons_self _ _)
        rw [hp] at this
        cases this
    | some n =>
      have hstep : parseIds (s :: ss) = (parseIds ss).map (fun ns => n :: ns) := by
        simp only [parseIds, hp]
      rw [hstep]
      constructor
      · rintro ⟨ns, hns⟩
        cases h2 : parseIds ss with
        | error err =>
          rw [h2] at hns
          exact absurd hns (by simp [Except.map])
        | ok ns0 =>
          intro s' hs'
          rcases List.mem_cons.mp hs' with rfl | hs'
          · rw [hp]; rfl
          · exact ih.mp ⟨ns0, h2⟩ s' hs'
      · intro hall
        obtain ⟨ns0, hns0⟩ := ih.mpr (fun s' hs' => hall s' (List.mem_cons_of_mem _ hs'))
        exact ⟨n :: ns0, by rw [hns0]; rfl⟩

theorem parseIds_mem (ids : List String) (ns : List Int)
    (h : parseIds ids = .ok ns) (n : Int) :
    n ∈ ns ↔ ∃ s ∈ ids, pyInt s = some n := by
  induction ids generalizing ns with
  | nil =>
    rw [show parseIds [] = Except.ok ([] : List Int) from rfl] at h
    injection h with h2
    subst h2
    simp
  | cons s ss ih =>
    cases hp : pyInt s with
    | none =>
      have hstep : parseIds (s :: ss) = .error ⟨s⟩ := by
        simp only [parseIds, hp]
      rw [hstep] at h
      cases h
    | some m =>
      have hstep : parseIds (s :: ss) = (parseIds ss).map (fun ns0 => m :: ns0) := by
        simp only [parseIds, hp]
      rw [hstep] at h
      cases h2 : parseIds ss with
      | error err =>
        rw [h2] at h
        exact absurd h (by simp [Except.map])
      | ok ns0 =>
        rw [h2] at h
        have hns : ns = m :: ns0 := by
          simp only [Except.map] at h
          injection h with h3
          exact h3.symm
        subst hns
        rw [List.mem_cons, ih ns0 h2]
        constructor
        · rintro (rfl | ⟨s', hs', hp'⟩)
          · exact ⟨s, List.mem_cons_self _ _, hp⟩
          · exact ⟨s', List.mem_cons_of_mem _ hs', hp'⟩
        · rintro ⟨s', hs', hp'⟩
          rcases List.mem_cons.mp hs' with rfl | hs'
          · left
            rw [hp] at hp'
            injection hp' with h3
            exact h3.symm
          · right
            exact ⟨s', hs', hp'⟩

/-- C7: when lookup succeeds, its result consists exactly of the
attribute-table rows whose patent id matches some input id, projected to
the fixed columns and kept in attribute-table row order; ids with no
matching row are simply absent, so the result may be shorter than the
input and no error is raised for unmatched ids. -/
theorem lookup_spec (ids : List String) (tbl : List PatRow) (res : List ReportRow)
    (h : lookup ids tbl = .ok res) :
    res.Sublist (tbl.map colsProject) ∧
    (∀ pr ∈ res, ∃ r ∈ tbl, pr = colsProject r ∧ ∃ s ∈ ids, pyInt s = some r.patent) ∧
    (∀ r ∈ tbl, (∃ s ∈ ids, pyInt s = some r.patent) → colsProject r ∈ res) ∧
    res.length ≤ tbl.length := by
  cases hp : parseIds ids with
  | error e =>
    rw [lookup, hp] at h
    exact absurd h (by simp [Except.map])
  | ok ns =>
    rw [lookup, hp] at h
    have hres : res = (tbl.filter (fun r => decide (r.patent ∈ ns))).map colsProject := by
      simp only [Except.map] at h
      injection h with h2
      exact h2.symm
    subst hres
    refine ⟨?_, ?_, ?_, ?_⟩
    · exact List.Sublist.map _ (List.filter_sublist _)
    · intro pr hpr
      rcases List.mem_map.mp hpr with ⟨r, hr, rfl⟩
      rcases List.mem_filter.mp hr with ⟨hrtbl, hcond⟩
      have hmem : r.patent ∈ ns := of_decide_eq_true hcond
      exact ⟨r, hrtbl, rfl, (parseIds_mem ids ns hp r.patent).mp hmem⟩
    · intro r hr hex
      have hmem : r.patent ∈ ns := (parseIds_mem ids ns hp r.patent).mpr hex
      exact List.mem_map_of_mem _ (List.mem_filter.mpr ⟨hr, decide_eq_true hmem⟩)
    · rw [List.length_map]
      exact List.length_filter_le _ _

/-- A small concrete attribute table. -/
def sampleTable : List PatRow :=
  [⟨1, 1990, 10, some "ACME"⟩, ⟨2, 1991, 11, none⟩]

/-- Witness for C7: looking up id 2 in the concrete table returns only
the matching projected row. -/
theorem lookup_spec_witness :
    ([(⟨2, 1991, none⟩ : ReportRow)]).Sublist (sampleTable.map colsProject) ∧
    (∀ pr ∈ [(⟨2, 1991, none⟩ : ReportRow)], ∃ r ∈ sampleTable,
      pr = colsProject r ∧ ∃ s ∈ ["2"], pyInt s = some r.patent) ∧
    (∀ r ∈ sampleTable, (∃ s ∈ ["2"], pyInt s = some r.patent) →
      colsProject r ∈ [(⟨2, 1991, none⟩ : ReportRow)]) ∧
    ([(⟨2, 1991, none⟩ : ReportRow)]).length ≤ sampleTable.length :=
  lookup_spec ["2"] sampleTable [⟨2, 1991, none⟩] rfl

/-- C8: lookup fails with the int-conversion error as soon as some input
id is not the string form of an integer, and succeeds whenever every
input id parses as an integer. -/
theorem lookup_int_conversion (ids : List String) (tbl : List PatRow) :
    ((∃ s ∈ ids, pyInt s = none) → ∃ e, lookup ids tbl = .error e) ∧
    ((∀ s ∈ ids, (pyInt s).isSome) → ∃ res, lookup ids tbl = .ok res) := by
  constructor
  · rintro ⟨s, hs, hnone⟩
    cases hp : parseIds ids with
    | error e => exact ⟨e, by rw [lookup, hp]; rfl⟩
    | ok ns =>
      exfalso
      have := (parseIds_ok_iff ids).mp ⟨ns, hp⟩ s hs
      rw [hnone] at this
      cases this
  · intro hall
    obtain ⟨ns, hns⟩ := (parseIds_ok_iff ids).mpr hall
    exact ⟨_, by rw [lookup, hns]; rfl⟩

/-- Witness for C8: an id list containing the non-numeric id x fails,
an all-numeric id list succeeds. -/
theorem lookup_int_conversion_witness :
    (∃ e, lookup ["12", "x"] sampleTable = .error e) ∧
    (∃ res, lookup ["12"] sampleTable = .ok res) :=
  ⟨(lookup_int_conversion ["12", "x"] sampleTable).1 (by decide),
   (lookup_int_conversion ["12"] sampleTable).2 (by decide)⟩

/-- Model of the notebook session for the frame-effect claim: the
attribute table pat_data is a frame object living at a fixed address,
and every frame produced by a lookup call is allocated at a fresh
address taken from an allocation counter. -/
structure PdSession where
  tbl : List PatRow
  tblAddr : ℕ
  nextAddr : ℕ

/-- Embedded from the source notebook: the stateful reading of a lookup
call.  The boolean-mask selection and the explicit copy only read
pat_data; the copied result frame is allocated at a fresh address. -/
def lookupSession (s : PdSession) (ids : List String) :
    PdSession × Except ValueError (ℕ × List ReportRow) :=
  match lookup ids s.tbl with
  | .error e => (s, .error e)
  | .ok res => ({ s with nextAddr := s.nextAddr + 1 }, .ok (s.nextAddr, res))

/-- C9: a lookup call leaves the attribute table unchanged — same rows at
the same address — and the frame it returns is a fresh copy at an address
distinct from pat_data, so a subsequent lookup call reading the
post-call session returns the same rows. -/
theorem lookup_no_mutation (s : PdSession) (ids : List String)
    (hfresh : s.tblAddr < s.nextAddr) :
    (lookupSession s ids).1.tbl = s.tbl ∧
    (lookupSession s ids).1.tblAddr = s.tblAddr ∧
    s.tblAddr < (lookupSession s ids).1.nextAddr ∧
    (∀ a res, (lookupSession s ids).2 = .ok (a, res) →
      a ≠ s.tblAddr ∧ lookup ids s.tbl = .ok res) ∧
    (∀ a₁ r₁ a₂ r₂, (lookupSession s ids).2 = .ok (a₁, r₁) →
      (lookupSession (lookupSession s ids).1 ids).2 = .ok (a₂, r₂) → r₁ = r₂) := by
  cases hl : lookup ids s.tbl with
  | error e =>
    have hs : lookupSession s ids = (s, .error e) := by
      simp only [lookupSession, hl]
    refine ⟨?_, ?_, ?_, ?_, ?_⟩
    · rw [hs]
    · rw [hs]
    · rw [hs]
      exact hfresh
    · intro a res h
      rw [hs] at h
      cases h
    · intro a₁ r₁ a₂ r₂ h₁ h₂
      rw [hs] at h₁
      cases h₁
  | ok res =>
    have hs : lookupSession s ids
        = ({ s with nextAddr := s.nextAddr + 1 }, .ok (s.nextAddr, res)) := by
      simp only [lookupSession, hl]
    have hs2 : (lookupSession { s with nextAddr := s.nextAddr + 1 } ids).2
        = .ok (s.nextAddr + 1, res) := by
      simp only [lookupSession, hl]
    refine ⟨?_, ?_, ?_, ?_, ?_⟩
    · rw [hs]
    · rw [hs]
    · rw [hs]
      exact Nat.lt_succ_of_lt hfresh
    · intro a r h
      rw [hs] at h
      injection h with h2
      have ha : a = s.nextAddr := (congrArg Prod.fst h2).symm
      have hr : r = res := (congrArg Prod.snd h2).symm
      subst ha
      subst hr
      exact ⟨fun h3 => Nat.lt_irrefl _ (h3 ▸ hfresh), rfl⟩
    · intro a₁ r₁ a₂ r₂ h₁ h₂
      rw [hs] at h₁ h₂
      rw [hs2] at h₂
      injection h₁ with h₁2
      injection h₂ with h₂2
      have hr₁ : r₁ = res := (congrArg Prod.snd h₁2).symm
      have hr₂ : r₂ = res := (congrArg Prod.snd h₂2).symm
      rw [hr₁, hr₂]

/-- Witness for C9 at a concrete session holding the sample table at
address 0 with allocation counter 1. -/
theorem lookup_no_mutation_witness :
    (lookupSession ⟨sampleTable, 0, 1⟩ ["2"]).1.tbl = sampleTable ∧
    (lookupSession ⟨sampleTable, 0, 1⟩ ["2"]).1.tblAddr = 0 ∧
    0 < (lookupSession ⟨sampleTable, 0, 1⟩ ["2"]).1.nextAddr ∧
    (∀ a res, (lookupSession ⟨sampleTable, 0, 1⟩ ["2"]).2 = .ok (a, res) →
      a ≠ 0 ∧ lookup ["2"] sampleTable = .ok res) ∧
    (∀ a₁ r₁ a₂ r₂, (lookupSession ⟨sampleTable, 0, 1⟩ ["2"]).2 = .ok (a₁, r₁) →
      (lookupSession ((lookupSession ⟨sampleTable, 0, 1⟩ ["2"]).1) ["2"]).2 = .ok (a₂, r₂) →
      r₁ = r₂) :=
  lookup_no_mutation ⟨sampleTable, 0, 1⟩ ["2"] (by decide)

/-- C10: the result of lookup depends only on the set of distinct input
ids: two id sequences with the same members (in any order, with any
duplication) fail together or produce exactly the same rows in the same
attribute-table order. -/
theorem lookup_set_invariance (ids₁ ids₂ : List String) (tbl : List PatRow)
    (hset : ∀ x, x ∈ ids₁ ↔ x ∈ ids₂) :
    ((∃ e, lookup ids₁ tbl = .error e) ↔ (∃ e, lookup ids₂ tbl = .error e)) ∧
    (∀ r₁ r₂, lookup ids₁ tbl = .ok r₁ → lookup ids₂ tbl = .ok r₂ → r₁ = r₂) := by
  constructor
  · have herr : ∀ ids : List String,
        (∃ e, lookup ids tbl = .error e) ↔ ¬ ∀ s ∈ ids, (pyInt s).isSome := by
      intro ids
      cases hp : parseIds ids with
      | error e =>
        constructor
        · intro _ hall
          obtain ⟨ns, hns⟩ := (parseIds_ok_iff ids).mpr hall
          rw [hp] at hns
          cases hns
        · intro _
          exact ⟨e, by rw [lookup, hp]; rfl⟩
      | ok ns =>
        constructor
        · rintro ⟨e, he⟩
          rw [lookup, hp] at he
          exact absurd he (by simp [Except.map])
        · intro hno
          exact absurd ((parseIds_ok_iff ids).mp ⟨ns, hp⟩) hno
    rw [herr ids₁, herr ids₂]
    constructor
    · intro h1 hall
      exact h1 (fun s hs => hall s ((hset s).mp hs))
    · intro h2 hall
      exact h2 (fun s hs => hall s ((hset s).mpr hs))
  · intro r₁ r₂ h₁ h₂
    cases hp₁ : parseIds ids₁ with
    | error e =>
      rw [lookup, hp₁] at h₁
      exact absurd h₁ (by simp [Except.map])
    | ok ns₁ =>
      cases hp₂ : parseIds ids₂ with
      | error e =>
        rw [lookup, hp₂] at h₂
        exact absurd h₂ (by simp [Except.map])
      | ok ns₂ =>
        rw [lookup, hp₁] at h₁
        rw [lookup, hp₂] at h₂
        simp only [Except.map] at h₁ h₂
        injection h₁ with h₁2
        injection h₂ with h₂2
        have hns : ∀ n : Int, n ∈ ns₁ ↔ n ∈ ns₂ := by
          intro n
          rw [parseIds_mem ids₁ ns₁ hp₁, parseIds_mem ids₂ ns₂ hp₂]
          constructor
          · rintro ⟨s, hs, hps⟩
            exact ⟨s, (hset s).mp hs, hps⟩
          · rintro ⟨s, hs, hps⟩
            exact ⟨s, (hset s).mpr hs, hps⟩
        have hfil : tbl.filter (fun r => decide (r.patent ∈ ns₁))
            = tbl.filter (fun r => decide (r.patent ∈ ns₂)) :=
          List.filter_congr (fun r _ => decide_eq_decide.mpr (hns r.patent))
        rw [← h₁2, ← h₂2, hfil]

/-- Witness for C10: the id sequences [1, 2, 2] and [2, 1] have the same
member set and give identical lookup behaviour on the sample table. -/
theorem lookup_set_invariance_witness :
    ((∃ e, lookup ["1", "2", "2"] sampleTable = .error e) ↔
      (∃ e, lookup ["2", "1"] sampleTable = .error e)) ∧
    (∀ r₁ r₂, lookup ["1", "2", "2"] sampleTable = .ok r₁ →
      lookup ["2", "1"] sampleTable = .ok r₂ → r₁ = r₂) :=
  lookup_set_invariance ["1", "2", "2"] ["2", "1"] sampleTable
    (by intro x; simp; tauto)
